import Mathlib

/-!
Verification development for the decision engine in src/main.rs: a
Planet-Wars style bot that projects the future owner and garrison of each
planet from the in-flight expeditions (simulate_arrivals), scores
candidate (source, destination) pairs (score), and greedily commits moves
(next_move).

Shallow embedding conventions:
- Rust usize is modelled as ℕ; every usize subtraction in the source is
  modelled by truncated ℕ subtraction, and the development proves the
  subtractions never underflow (see the integer-valued replay below).
- Rust f64 planet coordinates are modelled as ℚ with exact arithmetic;
  the composition distance.sqrt().ceil() as usize is modelled exactly as
  the least natural k with k * k ≥ the squared distance, which equals the
  ceiling of the real square root of the (non-negative) squared distance.
- Option owner, strings, vectors are modelled directly; Rust sort_by_key
  is a stable sort, modelled by insertion sort on the same key.
-/

/-- A planet of the snapshot, as deserialized by the bot: a unique name,
2D coordinates, an optional owning faction and the resident ship count. -/
structure Planet where
  name : String
  x : ℚ
  y : ℚ
  owner : Option ℕ
  ship_count : ℕ

/-- An in-flight expedition (fleet): origin and destination planet names,
turns remaining until arrival, the owning faction and the ship count. -/
structure Expedition where
  id : ℕ
  origin : String
  destination : String
  turns_remaining : ℕ
  owner : ℕ
  ship_count : ℕ
deriving DecidableEq

/-- The full turn snapshot: all planets and all in-flight expeditions. -/
structure GameState where
  planets : List Planet
  expeditions : List Expedition

/-- An output move: launch ship_count ships from origin to destination. -/
structure Move where
  origin : String
  destination : String
  ship_count : ℕ
deriving DecidableEq

/-- The output of one decision cycle: the list of committed moves. -/
structure Turn where
  moves : List Move
deriving DecidableEq

/-- Squared Euclidean distance between two planets, the quantity whose
square root the source takes in distance_between_planets. -/
def distance_squared (planet1 planet2 : Planet) : ℚ :=
  (planet1.x - planet2.x) * (planet1.x - planet2.x) +
    (planet1.y - planet2.y) * (planet1.y - planet2.y)

/-- Bounded search for the least k ≥ n with m ≤ k * k. -/
def ceilSqrtAux : ℕ → ℕ → ℕ → ℕ
  | 0, n, _ => n
  | fuel + 1, n, m => if m ≤ n * n then n else ceilSqrtAux fuel (n + 1) m

/-- The least natural k with m ≤ k * k, i.e. the ceiling of the real
square root of m. -/
def ceilSqrtNat (m : ℕ) : ℕ := ceilSqrtAux (m + 1) 0 m

/-- Model of distance_between_planets(p, q).sqrt().ceil() as usize from
the source: since the ceiling of a real square root of a non-negative
rational v is the least natural k with k * k ≥ v, and k * k is an
integer, it equals the least k with k * k ≥ ⌈v⌉. -/
def dist_ceil (planet1 planet2 : Planet) : ℕ :=
  ceilSqrtNat (Int.toNat ⌈distance_squared planet1 planet2⌉)

/-- The expeditions of the snapshot whose destination is the given
planet, in input order: the relevant_expeditions filter of
simulate_arrivals. -/
def relevant_expeditions (planet : Planet) (gamestate : GameState) : List Expedition :=
  gamestate.expeditions.filter (fun x => x.destination == planet.name)

/-- The key order used by sort_by_key in simulate_arrivals. -/
def expLe (a b : Expedition) : Prop := a.turns_remaining ≤ b.turns_remaining

instance : DecidableRel expLe := fun a b => Nat.decLe a.turns_remaining b.turns_remaining

instance : IsTotal Expedition expLe := ⟨fun a b => Nat.le_total a.turns_remaining b.turns_remaining⟩

instance : IsTrans Expedition expLe := ⟨fun _ _ _ hab hbc => Nat.le_trans hab hbc⟩

/-- Model of Rust sort_by_key(|x| x.turns_remaining): a stable ascending
sort; insertion sort with the non-strict key order is stable. -/
def sortExpeditions (l : List Expedition) : List Expedition :=
  List.insertionSort expLe l

/-- One iteration of the simulate_arrivals loop on the accumulator
(owner, ship_count, last_simulated_turn): first the growth step, then
the arrival (reinforce / capture / annihilate / absorb) step. -/
def arrivalStep (acc : ℕ × ℕ × ℕ) (expedition : Expedition) : ℕ × ℕ × ℕ :=
  let grown := if acc.1 ≠ 0 then acc.2.1 + (expedition.turns_remaining - acc.2.2) else acc.2.1
  if expedition.owner = acc.1 then
    (acc.1, grown + expedition.ship_count, expedition.turns_remaining)
  else if grown < expedition.ship_count then
    (expedition.owner, expedition.ship_count - grown, expedition.turns_remaining)
  else if grown = expedition.ship_count then
    (0, 0, expedition.turns_remaining)
  else
    (acc.1, grown - expedition.ship_count, expedition.turns_remaining)

/-- simulate_arrivals from the source: fold the time-sorted relevant
expeditions with arrivalStep, starting from the planet's current owner
(absent mapped to the neutral id 0), ship count and last time 0. -/
def simulate_arrivals (planet : Planet) (gamestate : GameState) : ℕ × ℕ :=
  let sorted := sortExpeditions (relevant_expeditions planet gamestate)
  let final := sorted.foldl arrivalStep (planet.owner.getD 0, planet.ship_count, 0)
  (final.1, final.2.1)

/-- score from the source: project the destination, return the sentinel
(0, 0) when the projected garrison + 1 reaches the source's ship count or
the projection is already owned by faction 1, else the committed force
garrison + 1 and the cost ceil(distance) * committed. -/
def score (source dest : Planet) (gamestate : GameState) : ℕ × ℕ :=
  let proj := simulate_arrivals dest gamestate
  if proj.2 + 1 ≥ source.ship_count ∨ proj.1 = 1 then
    (0, 0)
  else
    (proj.2 + 1, dist_ceil source dest * (proj.2 + 1))

/-- The planets owned by faction 1 (the bot itself), in snapshot order. -/
def my_planets (state : GameState) : List Planet :=
  state.planets.filter (fun x => x.owner.getD 0 == 1)

/-- The planets not owned by faction 1, in snapshot order. -/
def other_planets (state : GameState) : List Planet :=
  state.planets.filter (fun x => x.owner.getD 0 != 1)

/-- The candidate triples of one greedy round: the iproduct enumeration
(source-major, then destination) of mine × others, each paired with its
score, keeping only pairs whose cost is non-zero. -/
def candidate_list (mine others : List Planet) (state : GameState) :
    List (Planet × Planet × ℕ × ℕ) :=
  ((mine.flatMap (fun s => others.map (fun d => (s, d)))).map
      (fun sd => (sd.1, sd.2, score sd.1 sd.2 state))).filter
    (fun c => c.2.2.2 != 0)

/-- Left fold keeping the current champion, replacing it only on a
strictly smaller key: the semantics of Rust Iterator::min_by_key, which
returns the first of several equally minimal elements. -/
def minByKeyAux {α β : Type} (lt : β → β → Bool) (key : α → β) :
    α → List α → α
  | best, [] => best
  | best, x :: xs =>
    if lt (key x) (key best) then minByKeyAux lt key x xs
    else minByKeyAux lt key best xs

/-- Model of Rust Iterator::min_by_key. -/
def minByKey {α β : Type} (lt : β → β → Bool) (key : α → β) :
    List α → Option α
  | [] => none
  | x :: xs => some (minByKeyAux lt key x xs)

/-- Strict order on ℕ as a Bool, the comparison behind min_by_key on a
usize key. -/
def natLtB (a b : ℕ) : Bool := a < b

/-- Strict lexicographic order on ℕ × ℕ as a Bool: the derived Ord of a
(usize, usize) tuple, the comparison behind min_by_key on the full score
tuple (ship_count, cost). -/
def pairLtB (a b : ℕ × ℕ) : Bool := a.1 < b.1 ∨ (a.1 = b.1 ∧ a.2 < b.2)

/-- Build the committed Move of a selected candidate triple. -/
def mkMove (c : Planet × Planet × ℕ × ℕ) : Move :=
  { origin := c.1.name, destination := c.2.1.name, ship_count := c.2.2.1 }

/-- The rounds of the greedy while-let loop after the first selection:
each round selects, by min_by_key on the full score tuple, among the
candidates whose source has not been used yet, commits it and removes
every planet carrying the used name. Fuel-indexed structural recursion;
remaining.length is always enough fuel (see planRoundsFuel_congr). -/
def planRoundsFuel (state : GameState) (others : List Planet) :
    ℕ → List Planet → List Move
  | 0, _ => []
  | fuel + 1, remaining =>
    match minByKey pairLtB (fun c => c.2.2) (candidate_list remaining others state) with
    | none => []
    | some c =>
      mkMove c ::
        planRoundsFuel state others fuel
          (remaining.filter (fun p => p.name != c.1.name))

/-- next_move from the source: empty when the bot owns no planet or all
planets; otherwise the first selection is by min_by_key on the cost alone
and the following rounds are by min_by_key on the full score tuple over
the not-yet-used sources. -/
def next_move (state : GameState) : Turn :=
  let mine := my_planets state
  let others := other_planets state
  if mine.length = 0 ∨ others.length = 0 then
    { moves := [] }
  else
    match minByKey natLtB (fun c => c.2.2.2) (candidate_list mine others state) with
    | none => { moves := [] }
    | some c =>
      { moves :=
          mkMove c ::
            planRoundsFuel state others mine.length
              (mine.filter (fun p => p.name != c.1.name)) }

/-! Integer-valued replay: the same fold as simulate_arrivals but with
garrison, last time and all subtractions in ℤ, i.e. with the exact
(non-truncating) arithmetic the specification describes. Comparing it
with the ℕ fold shows no usize subtraction of the source underflows. -/

/-- The loop body of simulate_arrivals with exact integer arithmetic. -/
def arrivalStepZ (acc : ℤ × ℤ × ℤ) (expedition : Expedition) : ℤ × ℤ × ℤ :=
  let grown :=
    if acc.1 ≠ 0 then acc.2.1 + ((expedition.turns_remaining : ℤ) - acc.2.2) else acc.2.1
  if (expedition.owner : ℤ) = acc.1 then
    (acc.1, grown + (expedition.ship_count : ℤ), (expedition.turns_remaining : ℤ))
  else if grown < (expedition.ship_count : ℤ) then
    ((expedition.owner : ℤ), (expedition.ship_count : ℤ) - grown, (expedition.turns_remaining : ℤ))
  else if grown = (expedition.ship_count : ℤ) then
    (0, 0, (expedition.turns_remaining : ℤ))
  else
    (acc.1, grown - (expedition.ship_count : ℤ), (expedition.turns_remaining : ℤ))

/-- simulate_arrivals replayed with exact integer arithmetic. -/
def simulate_arrivalsZ (planet : Planet) (gamestate : GameState) : ℤ × ℤ :=
  let sorted := sortExpeditions (relevant_expeditions planet gamestate)
  let final :=
    sorted.foldl arrivalStepZ ((planet.owner.getD 0 : ℤ), (planet.ship_count : ℤ), 0)
  (final.1, final.2.1)

/-! Specification-side definitions, written after the wording of the
specification, to be compared with the source embedding. -/

/-- The accumulator step exactly as the specification words it: first the
growth step (if the owner is not neutral, add the elapsed turns to the
garrison), update last_time, then the arrival step (reinforce on matching
owner, otherwise capture / mutual annihilation / absorb by the three-way
comparison of garrison and fleet ship count). -/
def projectSpecStep (acc : ℕ × ℕ × ℕ) (fleet : Expedition) : ℕ × ℕ × ℕ :=
  let garrison :=
    if acc.1 ≠ 0 then acc.2.1 + (fleet.turns_remaining - acc.2.2) else acc.2.1
  let last_time := fleet.turns_remaining
  if fleet.owner = acc.1 then
    (acc.1, garrison + fleet.ship_count, last_time)
  else if garrison < fleet.ship_count then
    (fleet.owner, fleet.ship_count - garrison, last_time)
  else if garrison = fleet.ship_count then
    (0, 0, last_time)
  else
    (acc.1, garrison - fleet.ship_count, last_time)

/-- The projection exactly as the specification words it: the left fold of
projectSpecStep over the fleets destined for the planet, stably sorted
ascending by turns_remaining, from the accumulator (owner with absent
mapped to neutral, ship_count, 0). -/
def projectSpec (p : Planet) (snapshot : GameState) : ℕ × ℕ :=
  let folded :=
    (sortExpeditions (relevant_expeditions p snapshot)).foldl projectSpecStep
      (p.owner.getD 0, p.ship_count, 0)
  (folded.1, folded.2.1)

/-- The first element of the list whose key no element of the list
strictly beats: the minimum with ties broken by first-encountered order,
as the specification words the greedy selection. -/
def firstMinBy {α β : Type} (lt : β → β → Bool) (key : α → β) (l : List α) : Option α :=
  l.find? (fun x => l.all (fun y => !lt (key y) (key x)))

/-- The greedy rounds after the first, as the amended specification words
them: each round selects the profitable pair minimal in the lexicographic
(committed, cost) order among pairs whose source is unused, ties broken
by first-encountered enumeration order, commits it and marks the source
name used; destinations are never excluded. -/
def planSpecRounds (state : GameState) (others : List Planet) :
    ℕ → List Planet → List Move
  | 0, _ => []
  | fuel + 1, remaining =>
    match firstMinBy pairLtB (fun c => c.2.2) (candidate_list remaining others state) with
    | none => []
    | some c =>
      mkMove c ::
        planSpecRounds state others fuel
          (remaining.filter (fun p => p.name != c.1.name))

/-- The planner as the amended specification words it: the first round
selects the profitable pair with the globally minimal cost (ties broken
by first-encountered enumeration order); every later round selects by the
lexicographic (committed, cost) order over unused sources; the loop runs
until no profitable pair remains. -/
def plan_spec (state : GameState) : Turn :=
  let mine := my_planets state
  let others := other_planets state
  if mine.length = 0 ∨ others.length = 0 then
    { moves := [] }
  else
    match firstMinBy natLtB (fun c => c.2.2.2) (candidate_list mine others state) with
    | none => { moves := [] }
    | some c =>
      { moves :=
          mkMove c ::
            planSpecRounds state others mine.length
              (mine.filter (fun p => p.name != c.1.name)) }

/-- The snapshot with every expedition whose destination names no planet
of the snapshot removed. -/
def prune_dangling (state : GameState) : GameState :=
  { planets := state.planets,
    expeditions :=
      state.expeditions.filter
        (fun e => state.planets.any (fun p => p.name == e.destination)) }

/-- Total ship count of a list of expeditions. -/
def sumShips (l : List Expedition) : ℕ := (l.map Expedition.ship_count).sum

/-- The turns_remaining of the last expedition of the list, or the given
default when the list is empty. -/
def lastTurnD (t : ℕ) (l : List Expedition) : ℕ :=
  match l.getLast? with
  | none => t
  | some e => e.turns_remaining

/-! Concrete snapshots used by counterexamples and witnesses. -/

/-- Self-owned source planet at distance 1 from cP. -/
def c2A : Planet := { name := "A", x := 1, y := 0, owner := some 1, ship_count := 100 }

/-- Self-owned source planet at distance 6 from cP and 1 from cQ. -/
def c2B : Planet := { name := "B", x := 6, y := 0, owner := some 1, ship_count := 100 }

/-- Neutral destination with garrison 1. -/
def c2P : Planet := { name := "P", x := 0, y := 0, owner := none, ship_count := 1 }

/-- Neutral destination with garrison 10. -/
def c2Q : Planet := { name := "Q", x := 7, y := 0, owner := none, ship_count := 10 }

/-- Snapshot on which the greedy loop runs two rounds; in the second
round the pair minimal by cost differs from the pair minimal by the full
(committed, cost) tuple. -/
def c2state : GameState := { planets := [c2A, c2B, c2P, c2Q], expeditions := [] }

/-- Planet owned by faction 1 with garrison 3 (Example 2 of the spec). -/
def c3planet : Planet := { name := "H", x := 0, y := 0, owner := some 1, ship_count := 3 }

/-- Hostile fleet of faction 2 carrying 5 ships arriving at turn 2. -/
def c3fleet : Expedition :=
  { id := 1, origin := "E", destination := "H", turns_remaining := 2, owner := 2,
    ship_count := 5 }

/-- Snapshot of Example 2 of the spec. -/
def c3state : GameState := { planets := [c3planet], expeditions := [c3fleet] }

/-- Planet owned by faction 1 with garrison 5 and no incoming fleet. -/
def c8planet : Planet := { name := "G", x := 0, y := 0, owner := some 1, ship_count := 5 }

/-- Snapshot with no expeditions at all. -/
def c8state : GameState := { planets := [c8planet], expeditions := [] }

/-- Friendly fleet of faction 1 carrying 3 ships arriving at turn 4. -/
def c8fleet : Expedition :=
  { id := 7, origin := "E", destination := "G", turns_remaining := 4, owner := 1,
    ship_count := 3 }

/-- Snapshot in which only a friendly fleet is destined for c8planet. -/
def c8wstate : GameState := { planets := [c8planet], expeditions := [c8fleet] }

/-- First of two friendly fleets with the same arrival turn. -/
def c1fleetA : Expedition :=
  { id := 1, origin := "E", destination := "G", turns_remaining := 3, owner := 1,
    ship_count := 2 }

/-- Second of two friendly fleets with the same arrival turn. -/
def c1fleetB : Expedition :=
  { id := 2, origin := "F", destination := "G", turns_remaining := 3, owner := 1,
    ship_count := 4 }

/-- Snapshot with two equal-arrival-time fleets destined for the same
planet, exercising the stable tie-break of the sort. -/
def c1state : GameState :=
  { planets := [c8planet], expeditions := [c1fleetA, c1fleetB] }

/-- Enemy-owned planet referenced by no expedition below. -/
def c9planet : Planet := { name := "X", x := 0, y := 0, owner := some 2, ship_count := 5 }

/-- Expedition whose origin and destination name no planet of the
snapshot. -/
def c9fleet : Expedition :=
  { id := 3, origin := "Ghost", destination := "Nowhere", turns_remaining := 3, owner := 2,
    ship_count := 4 }

/-- Snapshot containing a dangling expedition. -/
def c9state : GameState := { planets := [c9planet], expeditions := [c9fleet] }

/-- The same snapshot with the dangling expedition removed. -/
def c9clean : GameState := { planets := [c9planet], expeditions := [] }

/-- Planet sharing its coordinates with czDest. -/
def czSource : Planet := { name := "S", x := 2, y := 3, owner := some 1, ship_count := 100 }

/-- Planet sharing its coordinates with czSource. -/
def czDest : Planet := { name := "D", x := 2, y := 3, owner := none, ship_count := 1 }

/-! Basic lemmas about the greedy selection. -/

theorem minByKeyAux_mem {α β : Type} (lt : β → β → Bool) (key : α → β) :
    ∀ (l : List α) (best : α),
      minByKeyAux lt key best l = best ∨ minByKeyAux lt key best l ∈ l := by
  intro l
  induction l with
  | nil => intro best; exact Or.inl rfl
  | cons x xs ih =>
    intro best
    simp only [minByKeyAux]
    by_cases h : lt (key x) (key best) = true
    · rw [if_pos h]
      rcases ih x with h2 | h2
      · exact Or.inr (by rw [h2]; exact List.mem_cons_self x xs)
      · exact Or.inr (List.mem_cons_of_mem x h2)
    · rw [if_neg h]
      rcases ih best with h2 | h2
      · exact Or.inl h2
      · exact Or.inr (List.mem_cons_of_mem x h2)

theorem minByKey_mem {α β : Type} {lt : β → β → Bool} {key : α → β} :
    ∀ {l : List α} {c : α}, minByKey lt key l = some c → c ∈ l := by
  intro l c h
  cases l with
  | nil => exact absurd h (by simp only [minByKey]; exact Option.noConfusion)
  | cons x xs =>
    simp only [minByKey, Option.some.injEq] at h
    rcases minByKeyAux_mem lt key xs x with h2 | h2
    · rw [← h, h2]; exact List.mem_cons_self x xs
    · rw [← h]; exact List.mem_cons_of_mem x h2

theorem mem_candidate_list {mine others : List Planet} {state : GameState}
    {c : Planet × Planet × ℕ × ℕ} (h : c ∈ candidate_list mine others state) :
    c.1 ∈ mine ∧ c.2.1 ∈ others ∧ c.2.2 = score c.1 c.2.1 state ∧ c.2.2.2 ≠ 0 := by
  simp only [candidate_list, List.mem_filter, List.mem_map, List.mem_flatMap,
    bne_iff_ne, ne_eq] at h
  obtain ⟨⟨sd, ⟨s, hs, d, hd, hsd⟩, hc⟩, hcost⟩ := h
  subst hsd
  subst hc
  exact ⟨hs, hd, rfl, hcost⟩

theorem score_of_cost_ne_zero {s d : Planet} {st : GameState} {k c : ℕ}
    (h : score s d st = (k, c)) (hc : c ≠ 0) :
    (simulate_arrivals d st).1 ≠ 1 ∧ (simulate_arrivals d st).2 + 1 < s.ship_count ∧
      k = (simulate_arrivals d st).2 + 1 ∧ c = dist_ceil s d * k := by
  by_cases hcond :
      (simulate_arrivals d st).2 + 1 ≥ s.ship_count ∨ (simulate_arrivals d st).1 = 1
  · exfalso
    simp only [score, if_pos hcond, Prod.mk.injEq] at h
    exact hc h.2.symm
  · push_neg at hcond
    simp only [score, if_neg (by push_neg; exact hcond :
      ¬((simulate_arrivals d st).2 + 1 ≥ s.ship_count ∨ (simulate_arrivals d st).1 = 1)),
      Prod.mk.injEq] at h
    refine ⟨hcond.2, hcond.1, h.1.symm, ?_⟩
    rw [← h.2, h.1]

theorem candidate_list_nil {others : List Planet} {state : GameState} :
    candidate_list [] others state = [] := rfl

theorem length_filter_name_lt {remaining : List Planet} {a : Planet}
    (ha : a ∈ remaining) :
    (remaining.filter (fun p => p.name != a.name)).length < remaining.length := by
  induction remaining with
  | nil => cases ha
  | cons x xs ih =>
    rcases List.mem_cons.mp ha with h | h
    · subst h
      rw [List.filter_cons, if_neg (by simp)]
      exact Nat.lt_succ_of_le (List.length_filter_le _ xs)
    · rw [List.filter_cons]
      by_cases hx : (x.name != a.name) = true
      · rw [if_pos hx]
        exact Nat.succ_lt_succ (ih h)
      · rw [if_neg hx]
        exact Nat.lt_succ_of_lt (ih h)

theorem planRoundsFuel_congr (state : GameState) (others : List Planet) :
    ∀ (fuel1 fuel2 : ℕ) (remaining : List Planet),
      remaining.length ≤ fuel1 → remaining.length ≤ fuel2 →
      planRoundsFuel state others fuel1 remaining =
        planRoundsFuel state others fuel2 remaining := by
  intro fuel1
  induction fuel1 with
  | zero =>
    intro fuel2 remaining h1 _
    have hr : remaining = [] := List.eq_nil_of_length_eq_zero (Nat.le_zero.mp h1)
    subst hr
    cases fuel2 with
    | zero => rfl
    | succ g => simp [planRoundsFuel, candidate_list_nil, minByKey]
  | succ f ih =>
    intro fuel2 remaining h1 h2
    cases fuel2 with
    | zero =>
      have hr : remaining = [] := List.eq_nil_of_length_eq_zero (Nat.le_zero.mp h2)
      subst hr
      simp [planRoundsFuel, candidate_list_nil, minByKey]
    | succ g =>
      simp only [planRoundsFuel]
      cases hmin : minByKey pairLtB (fun c => c.2.2)
          (candidate_list remaining others state) with
      | none => rfl
      | some c =>
        have hc := mem_candidate_list (minByKey_mem hmin)
        have hlen := length_filter_name_lt hc.1
        dsimp only
        rw [ih g _ (Nat.le_of_lt_succ (Nat.lt_of_lt_of_le hlen h1))
          (Nat.le_of_lt_succ (Nat.lt_of_lt_of_le hlen h2))]

theorem planRoundsFuel_mem_spec (state : GameState) (others : List Planet) :
    ∀ (fuel : ℕ) (remaining : List Planet) (m : Move),
      m ∈ planRoundsFuel state others fuel remaining →
      ∃ s d, s ∈ remaining ∧ d ∈ others ∧ m.origin = s.name ∧ m.destination = d.name ∧
        m.ship_count = (score s d state).1 ∧ (score s d state).2 ≠ 0 := by
  intro fuel
  induction fuel with
  | zero => intro remaining m h; cases h
  | succ f ih =>
    intro remaining m h
    simp only [planRoundsFuel] at h
    cases hmin : minByKey pairLtB (fun c => c.2.2)
        (candidate_list remaining others state) with
    | none => rw [hmin] at h; cases h
    | some c =>
      rw [hmin] at h
      dsimp only at h
      have hc := mem_candidate_list (minByKey_mem hmin)
      rcases List.mem_cons.mp h with h | h
      · subst h
        refine ⟨c.1, c.2.1, hc.1, hc.2.1, rfl, rfl, ?_, ?_⟩
        · rw [← hc.2.2.1]; rfl
        · rw [← hc.2.2.1]; exact hc.2.2.2
      · obtain ⟨s, d, hs, hd, rest⟩ := ih _ m h
        exact ⟨s, d, List.mem_of_mem_filter hs, hd, rest⟩

theorem next_move_mem_spec {state : GameState} {m : Move}
    (h : m ∈ (next_move state).moves) :
    ∃ s d, s ∈ my_planets state ∧ d ∈ other_planets state ∧ m.origin = s.name ∧
      m.destination = d.name ∧ m.ship_count = (score s d state).1 ∧
      (score s d state).2 ≠ 0 := by
  simp only [next_move] at h
  by_cases hempty : (my_planets state).length = 0 ∨ (other_planets state).length = 0
  · rw [if_pos hempty] at h; cases h
  · rw [if_neg hempty] at h
    cases hmin : minByKey natLtB (fun c => c.2.2.2)
        (candidate_list (my_planets state) (other_planets state) state) with
    | none => rw [hmin] at h; cases h
    | some c =>
      rw [hmin] at h
      dsimp only at h
      have hc := mem_candidate_list (minByKey_mem hmin)
      rcases List.mem_cons.mp h with h | h
      · subst h
        refine ⟨c.1, c.2.1, hc.1, hc.2.1, rfl, rfl, ?_, ?_⟩
        · rw [← hc.2.2.1]; rfl
        · rw [← hc.2.2.1]; exact hc.2.2.2
      · obtain ⟨s, d, hs, hd, rest⟩ := planRoundsFuel_mem_spec state _ _ _ m h
        exact ⟨s, d, List.mem_of_mem_filter hs, hd, rest⟩

theorem score_cost_ne_zero_spec {s d : Planet} {st : GameState}
    (hc : (score s d st).2 ≠ 0) :
    (simulate_arrivals d st).1 ≠ 1 ∧ (simulate_arrivals d st).2 + 1 < s.ship_count ∧
      (score s d st).1 = (simulate_arrivals d st).2 + 1 ∧
      (score s d st).2 = dist_ceil s d * (score s d st).1 := by
  obtain ⟨h1, h2, h3, h4⟩ :=
    score_of_cost_ne_zero (Prod.mk.eta (p := score s d st)).symm hc
  exact ⟨h1, h2, h3, h4⟩

theorem planRoundsFuel_origins_nodup (state : GameState) (others : List Planet) :
    ∀ (fuel : ℕ) (remaining : List Planet),
      ((planRoundsFuel state others fuel remaining).map Move.origin).Nodup := by
  intro fuel
  induction fuel with
  | zero => intro remaining; simp [planRoundsFuel]
  | succ f ih =>
    intro remaining
    simp only [planRoundsFuel]
    cases hmin : minByKey pairLtB (fun c => c.2.2)
        (candidate_list remaining others state) with
    | none => simp
    | some c =>
      dsimp only
      rw [List.map_cons]
      refine List.nodup_cons.mpr ⟨?_, ih _⟩
      intro hmem
      rw [List.mem_map] at hmem
      obtain ⟨m, hm, hom⟩ := hmem
      obtain ⟨s, d, hs, _, hos, _⟩ := planRoundsFuel_mem_spec state others f _ m hm
      have hne := (List.mem_filter.mp hs).2
      rw [bne_iff_ne] at hne
      exact hne (by rw [← hos, hom]; rfl)

/-- Claim C4: score returns the not-profitable sentinel (0, 0) exactly
when the projected owner of the destination is the self faction 1 or the
projected garrison + 1 reaches the source's ship count; otherwise it
returns the committed force garrison + 1 and the cost
ceil(distance) * committed. -/
theorem claim_C4_score_formula (source dest : Planet) (state : GameState) :
    (score source dest state = (0, 0) ↔
      ((simulate_arrivals dest state).1 = 1 ∨
        (simulate_arrivals dest state).2 + 1 ≥ source.ship_count)) ∧
    ((simulate_arrivals dest state).1 ≠ 1 →
      (simulate_arrivals dest state).2 + 1 < source.ship_count →
      score source dest state =
        ((simulate_arrivals dest state).2 + 1,
          dist_ceil source dest * ((simulate_arrivals dest state).2 + 1))) := by
  constructor
  · by_cases hcond : ((simulate_arrivals dest state).2 + 1 ≥ source.ship_count ∨
        (simulate_arrivals dest state).1 = 1)
    · have hs0 : score source dest state = (0, 0) := by
        simp only [score, if_pos hcond]
      exact ⟨fun _ => hcond.symm, fun _ => hs0⟩
    · simp only [score, if_neg hcond]
      push_neg at hcond
      constructor
      · intro h
        exact absurd (congrArg Prod.fst h) (by simp)
      · intro h
        rcases h with h | h
        · exact absurd h hcond.2
        · exact absurd h (by omega)
  · intro h1 h2
    have hcond : ¬((simulate_arrivals dest state).2 + 1 ≥ source.ship_count ∨
        (simulate_arrivals dest state).1 = 1) := by
      push_neg
      exact ⟨by omega, h1⟩
    simp only [score, if_neg hcond]

/-- Claim C5: every move emitted by next_move carries at most its source
planet's ship count minus one, and targets a planet whose projection is
not owned by faction 1. -/
theorem claim_C5_profit_guard (state : GameState) (m : Move)
    (h : m ∈ (next_move state).moves) :
    (∃ s, s ∈ state.planets ∧ m.origin = s.name ∧
      m.ship_count ≤ s.ship_count - 1) ∧
    (∃ d, d ∈ state.planets ∧ m.destination = d.name ∧
      (simulate_arrivals d state).1 ≠ 1) := by
  obtain ⟨s, d, hs, hd, hos, hod, hsc, hcost⟩ := next_move_mem_spec h
  obtain ⟨hp1, hp2, hp3, _⟩ := score_cost_ne_zero_spec hcost
  constructor
  · refine ⟨s, List.mem_of_mem_filter hs, hos, ?_⟩
    rw [hsc, hp3]
    omega
  · exact ⟨d, List.mem_of_mem_filter hd, hod, hp1⟩

/-- Claim C6: in any single next_move output no origin name appears more
than once. -/
theorem claim_C6_unique_origins (state : GameState) :
    ((next_move state).moves.map Move.origin).Nodup := by
  simp only [next_move]
  by_cases hempty : (my_planets state).length = 0 ∨ (other_planets state).length = 0
  · rw [if_pos hempty]; simp
  · rw [if_neg hempty]
    cases hmin : minByKey natLtB (fun c => c.2.2.2)
        (candidate_list (my_planets state) (other_planets state) state) with
    | none => simp
    | some c =>
      dsimp only
      rw [List.map_cons]
      refine List.nodup_cons.mpr ⟨?_, planRoundsFuel_origins_nodup state _ _ _⟩
      intro hmem
      rw [List.mem_map] at hmem
      obtain ⟨m, hm, hom⟩ := hmem
      obtain ⟨s, d, hs, _, hos, _⟩ :=
        planRoundsFuel_mem_spec state (other_planets state) _ _ m hm
      have hne := (List.mem_filter.mp hs).2
      rw [bne_iff_ne] at hne
      exact hne (by rw [← hos, hom]; rfl)

/-- Claim C10: every emitted move stems from a pair whose heuristic cost
is non-zero, while any pair of planets with identical coordinates always
scores cost zero (indistinguishable from the not-profitable sentinel), so
such a pair is never committed even when the profitability conditions
hold. -/
theorem claim_C10_zero_cost_discard :
    (∀ (state : GameState) (m : Move), m ∈ (next_move state).moves →
      ∃ s d, s ∈ state.planets ∧ d ∈ state.planets ∧ m.origin = s.name ∧
        m.destination = d.name ∧ m.ship_count = (score s d state).1 ∧
        (score s d state).2 ≠ 0) ∧
    (∀ (state : GameState) (s d : Planet), s.x = d.x → s.y = d.y →
      (score s d state).2 = 0) := by
  constructor
  · intro state m h
    obtain ⟨s, d, hs, hd, rest⟩ := next_move_mem_spec h
    exact ⟨s, d, List.mem_of_mem_filter hs, List.mem_of_mem_filter hd, rest⟩
  · intro state s d hx hy
    have h0 : distance_squared s d = 0 := by
      rw [distance_squared, hx, hy]
      ring
    have hdist : dist_ceil s d = 0 := by
      rw [dist_ceil, h0]
      norm_num
      decide
    simp only [score]
    split_ifs
    · rfl
    · simp [hdist]

/-! The integer replay agrees with the ℕ fold on time-sorted input: all
arithmetic of the source stays within ℕ, so no usize subtraction
underflows and every intermediate garrison is non-negative. -/

theorem arrivalStep_time (acc : ℕ × ℕ × ℕ) (e : Expedition) :
    (arrivalStep acc e).2.2 = e.turns_remaining := by
  simp only [arrivalStep]
  split_ifs <;> rfl

theorem arrivalStepZ_cast (o g t : ℕ) (e : Expedition)
    (ht : t ≤ e.turns_remaining) :
    arrivalStepZ ((o : ℤ), (g : ℤ), (t : ℤ)) e =
      (((arrivalStep (o, g, t) e).1 : ℤ), ((arrivalStep (o, g, t) e).2.1 : ℤ),
        ((arrivalStep (o, g, t) e).2.2 : ℤ)) := by
  rcases Nat.eq_zero_or_pos o with ho | ho
  · subst ho
    simp only [arrivalStepZ, arrivalStep, Nat.cast_zero, ne_eq, not_true_eq_false,
      ite_false]
    split_ifs <;> simp only [Prod.mk.injEq, and_true, true_and] <;> omega
  · have ho2 : ¬(o = 0) := by omega
    have hoz : ¬((o : ℤ) = 0) := by omega
    simp only [arrivalStepZ, arrivalStep, ne_eq, ho2, hoz, not_false_eq_true, ite_true]
    split_ifs <;> simp only [Prod.mk.injEq, and_true, true_and] <;> omega

theorem castTriple_def (a : ℕ × ℕ × ℕ) :
    ((a.1 : ℤ), (a.2.1 : ℤ), (a.2.2 : ℤ)) =
      (fun b : ℕ × ℕ × ℕ => ((b.1 : ℤ), (b.2.1 : ℤ), (b.2.2 : ℤ))) a := rfl

theorem foldZ_agree :
    ∀ (l : List Expedition) (o g t : ℕ),
      List.Sorted expLe l → (∀ e ∈ l, t ≤ e.turns_remaining) →
      (l.foldl arrivalStepZ ((o : ℤ), (g : ℤ), (t : ℤ)) =
        (((l.foldl arrivalStep (o, g, t)).1 : ℤ),
          ((l.foldl arrivalStep (o, g, t)).2.1 : ℤ),
          ((l.foldl arrivalStep (o, g, t)).2.2 : ℤ))) ∧
      (List.scanl arrivalStepZ ((o : ℤ), (g : ℤ), (t : ℤ)) l =
        (List.scanl arrivalStep (o, g, t) l).map
          (fun b : ℕ × ℕ × ℕ => ((b.1 : ℤ), (b.2.1 : ℤ), (b.2.2 : ℤ)))) := by
  intro l
  induction l with
  | nil =>
    intro o g t _ _
    exact ⟨rfl, rfl⟩
  | cons e l ih =>
    intro o g t hsort ht
    have hte : t ≤ e.turns_remaining := ht e (List.mem_cons_self e l)
    rcases hn : arrivalStep (o, g, t) e with ⟨o2, g2, t2⟩
    have hstep := arrivalStepZ_cast o g t e hte
    rw [hn] at hstep
    have ht2 : t2 = e.turns_remaining := by
      have := arrivalStep_time (o, g, t) e
      rw [hn] at this
      exact this
    have hsorted := List.sorted_cons.mp hsort
    have ih2 := ih o2 g2 t2 hsorted.2
      (fun x hx => by rw [ht2]; exact hsorted.1 x hx)
    constructor
    · rw [List.foldl_cons, List.foldl_cons, hstep, hn, ih2.1]
    · rw [List.scanl_cons, List.scanl_cons, hstep, hn, ih2.2]
      simp

theorem sorted_sortExpeditions (l : List Expedition) :
    List.Sorted expLe (sortExpeditions l) :=
  List.sorted_insertionSort expLe l

/-- Claim C7: the projection keeps all intermediate and final garrison
values non-negative: the exact integer replay of simulate_arrivals agrees
step by step with the ℕ fold (so the growth subtraction, guarded by the
ascending sort, and the two combat subtractions, guarded by the three-way
comparison, never underflow), every intermediate garrison of the exact
replay is non-negative, and the final projected garrison is
non-negative. -/
theorem claim_C7_no_underflow (planet : Planet) (gamestate : GameState) :
    (simulate_arrivalsZ planet gamestate =
      (((simulate_arrivals planet gamestate).1 : ℤ),
        ((simulate_arrivals planet gamestate).2 : ℤ))) ∧
    (List.scanl arrivalStepZ
        ((planet.owner.getD 0 : ℤ), (planet.ship_count : ℤ), (0 : ℤ))
        (sortExpeditions (relevant_expeditions planet gamestate)) =
      (List.scanl arrivalStep (planet.owner.getD 0, planet.ship_count, 0)
          (sortExpeditions (relevant_expeditions planet gamestate))).map
        (fun b : ℕ × ℕ × ℕ => ((b.1 : ℤ), (b.2.1 : ℤ), (b.2.2 : ℤ)))) ∧
    (∀ a ∈ List.scanl arrivalStepZ
        ((planet.owner.getD 0 : ℤ), (planet.ship_count : ℤ), (0 : ℤ))
        (sortExpeditions (relevant_expeditions planet gamestate)), 0 ≤ a.2.1) ∧
    0 ≤ (simulate_arrivalsZ planet gamestate).2 := by
  have h := foldZ_agree (sortExpeditions (relevant_expeditions planet gamestate))
    (planet.owner.getD 0) planet.ship_count 0 (sorted_sortExpeditions _)
    (fun e _ => Nat.zero_le _)
  rw [Nat.cast_zero] at h
  refine ⟨?_, h.2, ?_, ?_⟩
  · simp only [simulate_arrivalsZ, simulate_arrivals]
    rw [h.1]
  · intro a ha
    rw [h.2, List.mem_map] at ha
    obtain ⟨b, _, hb⟩ := ha
    rw [← hb]
    exact Int.natCast_nonneg b.2.1
  · simp only [simulate_arrivalsZ]
    rw [h.1]
    exact Int.natCast_nonneg _

/-! Growth under friendly traffic: when every incoming expedition is
owned by the (non-neutral) owner of the planet, the fold only grows. -/

theorem sumShips_cons (e : Expedition) (l : List Expedition) :
    sumShips (e :: l) = e.ship_count + sumShips l := by
  simp [sumShips]

theorem le_sumShips {l : List Expedition} {e : Expedition} (he : e ∈ l) :
    e.ship_count ≤ sumShips l := by
  induction l with
  | nil => cases he
  | cons x xs ih =>
    rw [sumShips_cons]
    rcases List.mem_cons.mp he with h | h
    · subst h; exact Nat.le_add_right _ _
    · exact Nat.le_trans (ih h) (Nat.le_add_left _ _)

theorem friendly_foldl :
    ∀ (l : List Expedition) (o g t : ℕ), o ≠ 0 →
      List.Sorted expLe l → (∀ e ∈ l, e.owner = o) →
      (∀ e ∈ l, t ≤ e.turns_remaining) →
      l.foldl arrivalStep (o, g, t) =
        (o, g + (lastTurnD t l - t) + sumShips l, lastTurnD t l) := by
  intro l
  induction l with
  | nil =>
    intro o g t _ _ _ _
    simp [lastTurnD, sumShips]
  | cons e l ih =>
    intro o g t ho hsort hown ht
    have hte : t ≤ e.turns_remaining := ht e (List.mem_cons_self e l)
    have howne : e.owner = o := hown e (List.mem_cons_self e l)
    have hstep : arrivalStep (o, g, t) e =
        (o, g + (e.turns_remaining - t) + e.ship_count, e.turns_remaining) := by
      simp only [arrivalStep, ne_eq, ho, not_false_eq_true, ite_true, howne,
        if_pos rfl]
    rw [List.foldl_cons, hstep]
    cases l with
    | nil =>
      rw [List.foldl_nil]
      have h1 : lastTurnD t [e] = e.turns_remaining := rfl
      rw [h1]
      simp only [sumShips, List.map_cons, List.map_nil, List.sum_cons, List.sum_nil,
        Prod.mk.injEq, and_true, true_and]
      omega
    | cons e2 l2 =>
      have hsc := List.sorted_cons.mp hsort
      have ih2 := ih o (g + (e.turns_remaining - t) + e.ship_count) e.turns_remaining
        ho hsc.2 (fun x hx => hown x (List.mem_cons_of_mem e hx)) (fun x hx => hsc.1 x hx)
      rw [ih2]
      have hlast : lastTurnD t (e :: e2 :: l2) = lastTurnD e.turns_remaining (e2 :: l2) := by
        cases hgl : (e2 :: l2).getLast? with
        | none => exact absurd hgl (by simp)
        | some x => simp [lastTurnD, List.getLast?_cons_cons, hgl]
      have hL : e.turns_remaining ≤ lastTurnD e.turns_remaining (e2 :: l2) := by
        cases hgl : (e2 :: l2).getLast? with
        | none => simp at hgl
        | some x =>
          have hx : x ∈ e2 :: l2 := List.mem_of_mem_getLast? hgl
          have := hsc.1 x hx
          simp only [lastTurnD, hgl]
          exact this
      rw [hlast]
      simp only [sumShips_cons, Prod.mk.injEq, and_true, true_and]
      omega

theorem arrivalStep_eq_projectSpecStep : arrivalStep = projectSpecStep := rfl

/-- Claim C1: simulate_arrivals equals the specification's left fold over
the destined fleets sorted ascending by turns_remaining with ties broken
by input order, of the growth-then-arrival accumulator step from (owner
with absent mapped to neutral, ship_count, 0); the sort is a permutation
of the destined fleets, ascending in turns_remaining, and stable (a pair
in input order whose keys are non-decreasing — in particular a tie —
stays in that order); with no destined fleet the result is the planet's
current owner and ship count. -/
theorem claim_C1_projection_fold (p : Planet) (snapshot : GameState) :
    simulate_arrivals p snapshot = projectSpec p snapshot ∧
    (sortExpeditions (relevant_expeditions p snapshot)).Perm
      (relevant_expeditions p snapshot) ∧
    List.Sorted expLe (sortExpeditions (relevant_expeditions p snapshot)) ∧
    (∀ a b, a.turns_remaining ≤ b.turns_remaining →
      [a, b].Sublist (relevant_expeditions p snapshot) →
      [a, b].Sublist (sortExpeditions (relevant_expeditions p snapshot))) ∧
    (relevant_expeditions p snapshot = [] →
      simulate_arrivals p snapshot = (p.owner.getD 0, p.ship_count)) := by
  refine ⟨rfl, List.perm_insertionSort expLe _, sorted_sortExpeditions _, ?_, ?_⟩
  · intro a b hab h
    exact List.pair_sublist_insertionSort hab h
  · intro h
    simp [simulate_arrivals, h, sortExpeditions, List.insertionSort]

/-- Claim C8 (amended): when the planet's owner is a non-neutral faction,
at least one fleet is destined for it, and every destined fleet belongs
to that owner and carries at least one ship, the projection keeps the
owner and grows the garrison by exactly one ship per turn up to the last
(sorted) fleet's turns_remaining plus all arriving ships, a strict
increase over the current ship count. -/
theorem claim_C8_growth (p : Planet) (s : GameState) (o : ℕ)
    (howner : p.owner = some o) (ho : o ≠ 0)
    (hne : relevant_expeditions p s ≠ [])
    (hown : ∀ e ∈ relevant_expeditions p s, e.owner = o)
    (hpos : ∀ e ∈ relevant_expeditions p s, 1 ≤ e.ship_count) :
    simulate_arrivals p s =
      (o, p.ship_count + lastTurnD 0 (sortExpeditions (relevant_expeditions p s)) +
        sumShips (relevant_expeditions p s)) ∧
    p.ship_count < (simulate_arrivals p s).2 := by
  have hperm := List.perm_insertionSort expLe (relevant_expeditions p s)
  have hmem : ∀ e ∈ sortExpeditions (relevant_expeditions p s), e.owner = o :=
    fun e he => hown e (hperm.mem_iff.mp he)
  have hfold := friendly_foldl (sortExpeditions (relevant_expeditions p s)) o
    p.ship_count 0 ho (sorted_sortExpeditions _) hmem (fun e _ => Nat.zero_le _)
  have hsum : sumShips (sortExpeditions (relevant_expeditions p s)) =
      sumShips (relevant_expeditions p s) := (hperm.map Expedition.ship_count).sum_eq
  have heq : simulate_arrivals p s =
      (o, p.ship_count + lastTurnD 0 (sortExpeditions (relevant_expeditions p s)) +
        sumShips (relevant_expeditions p s)) := by
    simp only [simulate_arrivals, howner, Option.getD_some]
    rw [hfold, hsum]
    simp
  refine ⟨heq, ?_⟩
  rw [heq]
  obtain ⟨e, he⟩ := List.exists_mem_of_ne_nil _ hne
  have h1 := hpos e he
  have h2 := le_sumShips he
  simp only
  omega

/-! Dangling expeditions: an expedition whose destination names no planet
of the snapshot never enters any projection of a snapshot planet and
never influences the planner. -/

theorem relevant_prune {p : Planet} {state : GameState} (hp : p ∈ state.planets) :
    relevant_expeditions p (prune_dangling state) = relevant_expeditions p state := by
  simp only [relevant_expeditions, prune_dangling]
  rw [List.filter_filter]
  apply List.filter_congr
  intro e _
  by_cases hdest : e.destination = p.name
  · have hany : state.planets.any (fun q => q.name == p.name) = true := by
      rw [List.any_eq_true]
      exact ⟨p, hp, beq_self_eq_true _⟩
    simp only [hdest, hany, Bool.and_true, Bool.true_and]
  · simp [hdest]

theorem simulate_prune {p : Planet} {state : GameState} (hp : p ∈ state.planets) :
    simulate_arrivals p (prune_dangling state) = simulate_arrivals p state := by
  simp only [simulate_arrivals, relevant_prune hp]

theorem score_prune {s d : Planet} {state : GameState} (hd : d ∈ state.planets) :
    score s d (prune_dangling state) = score s d state := by
  simp only [score, simulate_prune hd]

theorem candidate_prune {mine others : List Planet} {state : GameState}
    (ho : ∀ d ∈ others, d ∈ state.planets) :
    candidate_list mine others (prune_dangling state) =
      candidate_list mine others state := by
  simp only [candidate_list]
  congr 1
  apply List.map_congr_left
  intro sd hsd
  have hsd2 : sd.2 ∈ others := by
    simp only [List.mem_flatMap, List.mem_map] at hsd
    obtain ⟨s, _, d, hd, hsd⟩ := hsd
    rw [← hsd]
    exact hd
  rw [score_prune (ho _ hsd2)]

theorem planRounds_prune (state : GameState) (others : List Planet)
    (ho : ∀ d ∈ others, d ∈ state.planets) :
    ∀ (fuel : ℕ) (remaining : List Planet),
      planRoundsFuel (prune_dangling state) others fuel remaining =
        planRoundsFuel state others fuel remaining := by
  intro fuel
  induction fuel with
  | zero => intro remaining; rfl
  | succ f ih =>
    intro remaining
    simp only [planRoundsFuel, candidate_prune ho]
    cases hmin : minByKey pairLtB (fun c => c.2.2)
        (candidate_list remaining others state) with
    | none => rfl
    | some c =>
      dsimp only
      rw [ih]

/-- Claim C9 (amended): the engine has no failure path for expeditions
whose destination names no planet of the snapshot: both the projection of
every snapshot planet and the planner are unchanged when all such
dangling expeditions are removed, i.e. they are silently ignored. -/
theorem claim_C9_silent_ignore (state : GameState) :
    (∀ p ∈ state.planets,
      simulate_arrivals p (prune_dangling state) = simulate_arrivals p state) ∧
    next_move (prune_dangling state) = next_move state := by
  refine ⟨fun p hp => simulate_prune hp, ?_⟩
  have hmine : my_planets (prune_dangling state) = my_planets state := rfl
  have hothers : other_planets (prune_dangling state) = other_planets state := rfl
  have ho : ∀ d ∈ other_planets state, d ∈ state.planets :=
    fun d hd => List.mem_of_mem_filter hd
  simp only [next_move, hmine, hothers, candidate_prune ho]
  by_cases hempty : (my_planets state).length = 0 ∨ (other_planets state).length = 0
  · rw [if_pos hempty, if_pos hempty]
  · rw [if_neg hempty, if_neg hempty]
    cases hmin : minByKey natLtB (fun c => c.2.2.2)
        (candidate_list (my_planets state) (other_planets state) state) with
    | none => rfl
    | some c =>
      dsimp only
      rw [planRounds_prune state _ ho]

/-! The greedy selection of the source (a left fold keeping the first
strict minimum) equals the specification's wording: the first element of
the enumeration whose key no other element strictly beats. -/

theorem find?_congr {α : Type} {p q : α → Bool} :
    ∀ (l : List α), (∀ a ∈ l, p a = q a) → l.find? p = l.find? q := by
  intro l
  induction l with
  | nil => intro _; rfl
  | cons x xs ih =>
    intro h
    have hx := h x (List.mem_cons_self x xs)
    by_cases hp : p x = true
    · rw [List.find?_cons_of_pos _ hp, List.find?_cons_of_pos _ (hx ▸ hp)]
    · have hp2 : p x = false := by
        cases hpv : p x
        · rfl
        · exact absurd hpv hp
      rw [List.find?_cons_of_neg _ (by simp [hp2]),
        List.find?_cons_of_neg _ (by simp [← hx, hp2]),
        ih (fun a ha => h a (List.mem_cons_of_mem x ha))]

theorem minByKeyAux_eq_find? {α β : Type} (lt : β → β → Bool) (key : α → β)
    (H1 : ∀ a, lt a a = false)
    (H2 : ∀ a b c, lt a b = true → lt b c = true → lt a c = true)
    (H3 : ∀ a b c, lt a b = true → lt c b = false → lt a c = true)
    (H4 : ∀ a b c, lt a b = false → lt b c = false → lt a c = false) :
    ∀ (l : List α) (best : α),
      (best :: l).find? (fun x => (best :: l).all (fun y => !lt (key y) (key x))) =
        some (minByKeyAux lt key best l) := by
  intro l
  induction l with
  | nil =>
    intro best
    simp only [minByKeyAux]
    apply List.find?_cons_of_pos
    simp [H1]
  | cons x xs ih =>
    intro best
    simp only [minByKeyAux]
    by_cases hx : lt (key x) (key best) = true
    · rw [if_pos hx, ← ih x]
      have hPbest : ((best :: x :: xs).all (fun y => !lt (key y) (key best))) = false := by
        simp only [List.all_cons, hx]
        simp
      rw [@List.find?_cons_of_neg α
        (fun z => (best :: x :: xs).all fun y => !lt (key y) (key z)) best (x :: xs)
        (by simp [hPbest])]
      apply find?_congr
      intro z hz
      simp only [List.all_cons]
      cases hxz : lt (key x) (key z) with
      | true => simp [hxz]
      | false =>
        cases hA : xs.all (fun y => !lt (key y) (key z)) with
        | false => simp [hA]
        | true =>
          have hbz : lt (key best) (key z) = false := by
            cases hbzv : lt (key best) (key z)
            · rfl
            · exact absurd (H2 _ _ _ hx hbzv) (by simp [hxz])
          simp [hxz, hA, hbz]
    · have hxb : lt (key x) (key best) = false := by
        cases hv : lt (key x) (key best)
        · rfl
        · exact absurd hv hx
      rw [if_neg hx, ← ih best]
      by_cases hPb : ((best :: xs).all (fun y => !lt (key y) (key best))) = true
      · have hPb2 : ((best :: x :: xs).all (fun y => !lt (key y) (key best))) = true := by
          simp only [List.all_cons, Bool.and_eq_true] at hPb ⊢
          exact ⟨hPb.1, by simp [hxb], hPb.2⟩
        rw [@List.find?_cons_of_pos α
            (fun z => (best :: x :: xs).all fun y => !lt (key y) (key z)) best (x :: xs) hPb2,
          @List.find?_cons_of_pos α
            (fun z => (best :: xs).all fun y => !lt (key y) (key z)) best xs hPb]
      · have hPbf : ((best :: xs).all (fun y => !lt (key y) (key best))) = false := by
          cases hv : (best :: xs).all (fun y => !lt (key y) (key best))
          · rfl
          · exact absurd hv hPb
        have hPb2f : ((best :: x :: xs).all (fun y => !lt (key y) (key best))) = false := by
          have hcopy := hPbf
          simp only [List.all_cons] at hcopy ⊢
          rw [hxb]
          simp only [Bool.not_false, Bool.true_and]
          exact hcopy
        have hwit : ∃ y ∈ best :: xs, lt (key y) (key best) = true := by
          by_contra hcon
          push_neg at hcon
          have hall : ((best :: xs).all (fun y => !lt (key y) (key best))) = true := by
            rw [List.all_eq_true]
            intro y hy
            have hyn := hcon y hy
            cases hv : lt (key y) (key best)
            · rfl
            · exact absurd hv hyn
          rw [hall] at hPbf
          exact absurd hPbf (by simp)
        obtain ⟨y, hy, hlty⟩ := hwit
        have hPx : ((best :: x :: xs).all (fun z => !lt (key z) (key x))) = false := by
          have hyx : lt (key y) (key x) = true := H3 _ _ _ hlty hxb
          have hymem : y ∈ best :: x :: xs := by
            rcases List.mem_cons.mp hy with h | h
            · rw [h]; exact List.mem_cons_self _ _
            · exact List.mem_cons_of_mem _ (List.mem_cons_of_mem _ h)
          cases hv : (best :: x :: xs).all (fun z => !lt (key z) (key x))
          · rfl
          · have := List.all_eq_true.mp hv y hymem
            rw [hyx] at this
            exact absurd this (by simp)
        rw [@List.find?_cons_of_neg α
            (fun z => (best :: x :: xs).all fun y => !lt (key y) (key z)) best (x :: xs)
            (by simp [hPb2f]),
          @List.find?_cons_of_neg α
            (fun z => (best :: x :: xs).all fun y => !lt (key y) (key z)) x xs
            (by simp [hPx]),
          @List.find?_cons_of_neg α
            (fun z => (best :: xs).all fun y => !lt (key y) (key z)) best xs
            (by simp [hPbf])]
        apply find?_congr
        intro z hz
        simp only [List.all_cons]
        cases hbz : lt (key best) (key z) with
        | true => simp [hbz]
        | false =>
          cases hA : xs.all (fun y => !lt (key y) (key z)) with
          | false => simp [hA]
          | true =>
            have hxz : lt (key x) (key z) = false := H4 _ _ _ hxb hbz
            simp [hxz, hA, hbz]

theorem minByKey_eq_firstMinBy {α β : Type} (lt : β → β → Bool) (key : α → β)
    (H1 : ∀ a, lt a a = false)
    (H2 : ∀ a b c, lt a b = true → lt b c = true → lt a c = true)
    (H3 : ∀ a b c, lt a b = true → lt c b = false → lt a c = true)
    (H4 : ∀ a b c, lt a b = false → lt b c = false → lt a c = false) :
    ∀ (l : List α), minByKey lt key l = firstMinBy lt key l := by
  intro l
  cases l with
  | nil => rfl
  | cons x xs =>
    exact (minByKeyAux_eq_find? lt key H1 H2 H3 H4 xs x).symm

theorem natLtB_irrefl : ∀ a, natLtB a a = false := by
  intro a
  simp [natLtB]

theorem natLtB_trans : ∀ a b c, natLtB a b = true → natLtB b c = true → natLtB a c = true := by
  intro a b c
  simp only [natLtB, decide_eq_true_eq]
  omega

theorem natLtB_lt_of_lt_of_ge : ∀ a b c, natLtB a b = true → natLtB c b = false → natLtB a c = true := by
  intro a b c
  simp only [natLtB, decide_eq_true_eq, decide_eq_false_iff_not]
  omega

theorem natLtB_ge_trans : ∀ a b c, natLtB a b = false → natLtB b c = false → natLtB a c = false := by
  intro a b c
  simp only [natLtB, decide_eq_false_iff_not]
  omega

theorem pairLtB_irrefl : ∀ a, pairLtB a a = false := by
  intro a
  simp only [pairLtB, decide_eq_false_iff_not]
  omega

theorem pairLtB_trans : ∀ a b c, pairLtB a b = true → pairLtB b c = true → pairLtB a c = true := by
  intro a b c
  simp only [pairLtB, decide_eq_true_eq]
  omega

theorem pairLtB_lt_of_lt_of_ge : ∀ a b c, pairLtB a b = true → pairLtB c b = false → pairLtB a c = true := by
  intro a b c
  simp only [pairLtB, decide_eq_true_eq, decide_eq_false_iff_not]
  omega

theorem pairLtB_ge_trans : ∀ a b c, pairLtB a b = false → pairLtB b c = false → pairLtB a c = false := by
  intro a b c
  simp only [pairLtB, decide_eq_false_iff_not]
  omega

theorem planRounds_eq_spec (state : GameState) (others : List Planet) :
    ∀ (fuel : ℕ) (remaining : List Planet),
      planRoundsFuel state others fuel remaining =
        planSpecRounds state others fuel remaining := by
  intro fuel
  induction fuel with
  | zero => intro remaining; rfl
  | succ f ih =>
    intro remaining
    simp only [planRoundsFuel, planSpecRounds]
    rw [← minByKey_eq_firstMinBy pairLtB
      (fun c : Planet × Planet × ℕ × ℕ => c.2.2) pairLtB_irrefl pairLtB_trans
      pairLtB_lt_of_lt_of_ge pairLtB_ge_trans]
    cases hmin : minByKey pairLtB (fun c => c.2.2)
        (candidate_list remaining others state) with
    | none => rfl
    | some c =>
      dsimp only
      rw [ih]

/-- Claim C2 (amended): next_move equals the specification-level planner
in which the FIRST round selects the profitable pair of globally minimal
cost (ties broken by first-encountered enumeration order) while every
LATER round selects the pair minimal in the lexicographic
(committed ship count, cost) order among pairs whose source is unused;
destinations are never excluded and the loop runs until no profitable
pair remains. -/
theorem claim_C2_greedy_selection (state : GameState) :
    next_move state = plan_spec state := by
  simp only [next_move, plan_spec]
  rw [← minByKey_eq_firstMinBy natLtB
    (fun c : Planet × Planet × ℕ × ℕ => c.2.2.2) natLtB_irrefl natLtB_trans
    natLtB_lt_of_lt_of_ge natLtB_ge_trans]
  by_cases hempty : (my_planets state).length = 0 ∨ (other_planets state).length = 0
  · rw [if_pos hempty, if_pos hempty]
  · rw [if_neg hempty, if_neg hempty]
    cases hmin : minByKey natLtB (fun c => c.2.2.2)
        (candidate_list (my_planets state) (other_planets state) state) with
    | none => rfl
    | some c =>
      dsimp only
      rw [planRounds_eq_spec]

/-! Concrete evaluations on the example snapshots. -/

theorem c2_sim_P : simulate_arrivals c2P c2state = (0, 1) := by decide

theorem c2_sim_Q : simulate_arrivals c2Q c2state = (0, 10) := by decide

theorem c2_dist_AP : dist_ceil c2A c2P = 1 := by
  have h : (⌈distance_squared c2A c2P⌉ : ℤ) = 1 := by
    norm_num [distance_squared, c2A, c2P]
  simp only [dist_ceil, h]
  decide

theorem c2_dist_AQ : dist_ceil c2A c2Q = 6 := by
  have h : (⌈distance_squared c2A c2Q⌉ : ℤ) = 36 := by
    norm_num [distance_squared, c2A, c2Q]
  simp only [dist_ceil, h]
  decide

theorem c2_dist_BP : dist_ceil c2B c2P = 6 := by
  have h : (⌈distance_squared c2B c2P⌉ : ℤ) = 36 := by
    norm_num [distance_squared, c2B, c2P]
  simp only [dist_ceil, h]
  decide

theorem c2_dist_BQ : dist_ceil c2B c2Q = 1 := by
  have h : (⌈distance_squared c2B c2Q⌉ : ℤ) = 1 := by
    norm_num [distance_squared, c2B, c2Q]
  simp only [dist_ceil, h]
  decide

theorem c2_score_AP : score c2A c2P c2state = (2, 2) := by
  have hsc : c2A.ship_count = 100 := rfl
  simp [score, c2_sim_P, c2_dist_AP, hsc]

theorem c2_score_AQ : score c2A c2Q c2state = (11, 66) := by
  have hsc : c2A.ship_count = 100 := rfl
  simp [score, c2_sim_Q, c2_dist_AQ, hsc]

theorem c2_score_BP : score c2B c2P c2state = (2, 12) := by
  have hsc : c2B.ship_count = 100 := rfl
  simp [score, c2_sim_P, c2_dist_BP, hsc]

theorem c2_score_BQ : score c2B c2Q c2state = (11, 11) := by
  have hsc : c2B.ship_count = 100 := rfl
  simp [score, c2_sim_Q, c2_dist_BQ, hsc]

theorem c2_mine : my_planets c2state = [c2A, c2B] := rfl

theorem c2_others : other_planets c2state = [c2P, c2Q] := rfl

theorem c2_cands1 : candidate_list [c2A, c2B] [c2P, c2Q] c2state =
    [(c2A, c2P, 2, 2), (c2A, c2Q, 11, 66), (c2B, c2P, 2, 12), (c2B, c2Q, 11, 11)] := by
  simp [candidate_list, c2_score_AP, c2_score_AQ, c2_score_BP, c2_score_BQ]

theorem c2_cands2 : candidate_list [c2B] [c2P, c2Q] c2state =
    [(c2B, c2P, 2, 12), (c2B, c2Q, 11, 11)] := by
  simp [candidate_list, c2_score_BP, c2_score_BQ]

theorem c2_cands_nil : candidate_list [] [c2P, c2Q] c2state = [] := rfl

theorem c2_name_A : c2A.name = "A" := rfl

theorem c2_name_B : c2B.name = "B" := rfl

theorem c2_name_P : c2P.name = "P" := rfl

theorem c2_eval : next_move c2state =
    { moves := [{ origin := "A", destination := "P", ship_count := 2 },
                { origin := "B", destination := "P", ship_count := 2 }] } := by
  simp [next_move, c2_mine, c2_others, c2_cands1, c2_cands2, c2_cands_nil, minByKey,
    minByKeyAux, natLtB, pairLtB, planRoundsFuel, mkMove, c2_name_A, c2_name_B, c2_name_P]

/-- Claim C2 counterexample: on the concrete snapshot c2state the greedy
loop commits (A, P) and then (B, P) with cost 12, although in the second
round the profitable pair (B, Q) with the strictly smaller cost 11 was
available from the same unused source B: rounds after the first do not
select the pair of globally minimal cost. -/
theorem claim_C2_counterexample :
    next_move c2state =
      { moves := [{ origin := "A", destination := "P", ship_count := 2 },
                  { origin := "B", destination := "P", ship_count := 2 }] } ∧
    (score c2B c2Q c2state).2 ≠ 0 ∧
    (score c2B c2Q c2state).2 < (score c2B c2P c2state).2 := by
  refine ⟨c2_eval, ?_, ?_⟩
  · rw [c2_score_BQ]
    decide
  · rw [c2_score_BQ, c2_score_BP]
    decide

/-- Claim C3 (amended): on the Example-2 input (planet of faction 1 with
garrison 3, one hostile fleet of faction 2 with 5 ships arriving at turn
2) the projection is (0, 0): the garrison grows to 5 before impact and
the equal forces mutually annihilate, leaving the planet neutral. -/
theorem claim_C3_example_projection :
    simulate_arrivals c3planet c3state = (0, 0) := by decide

/-- Claim C3 counterexample: the projection of the Example-2 input is not
(2, 0) as the claim states; the attacker does not capture the planet. -/
theorem claim_C3_counterexample :
    simulate_arrivals c3planet c3state ≠ (2, 0) := by decide

/-- Claim C8 counterexample: a planet owned by faction 1 in a snapshot
with no destined fleet at all satisfies the claim's hypotheses (owner not
neutral, no fleet destined for it owned by another faction), yet its
projected garrison equals its current ship count instead of strictly
exceeding it. -/
theorem claim_C8_counterexample :
    c8planet.owner = some 1 ∧
    (∀ e ∈ c8state.expeditions, e.destination = c8planet.name → e.owner = 1) ∧
    simulate_arrivals c8planet c8state = (1, c8planet.ship_count) ∧
    ¬ c8planet.ship_count < (simulate_arrivals c8planet c8state).2 := by decide

/-- Claim C9 counterexample: on the concrete snapshot c9state, whose only
expedition references an origin and a destination naming no planet of the
snapshot, the engine does not fail fast: the projection of the planet and
the planner both return ordinary values, identical to those of the
snapshot with the dangling expedition removed. -/
theorem claim_C9_counterexample :
    c9state.expeditions ≠ [] ∧
    (∀ q ∈ c9state.planets, q.name ≠ c9fleet.destination ∧ q.name ≠ c9fleet.origin) ∧
    simulate_arrivals c9planet c9state = simulate_arrivals c9planet c9clean ∧
    simulate_arrivals c9planet c9state = (2, 5) ∧
    next_move c9state = next_move c9clean ∧
    next_move c9state = { moves := [] } := by decide

/-! Witnesses instantiating the guarded theorems at concrete inputs. -/

theorem claim_C1_witness :
    simulate_arrivals c8planet c1state = projectSpec c8planet c1state ∧
    [c1fleetA, c1fleetB].Sublist
      (sortExpeditions (relevant_expeditions c8planet c1state)) ∧
    simulate_arrivals c8planet c8state = (c8planet.owner.getD 0, c8planet.ship_count) :=
  ⟨(claim_C1_projection_fold c8planet c1state).1,
    (claim_C1_projection_fold c8planet c1state).2.2.2.1 c1fleetA c1fleetB
      (by decide) (by decide),
    (claim_C1_projection_fold c8planet c8state).2.2.2.2 rfl⟩

theorem claim_C4_witness :
    score c2A c2P c2state =
      ((simulate_arrivals c2P c2state).2 + 1,
        dist_ceil c2A c2P * ((simulate_arrivals c2P c2state).2 + 1)) :=
  (claim_C4_score_formula c2A c2P c2state).2 (by decide) (by decide)

theorem claim_C5_witness :
    (∃ s, s ∈ c2state.planets ∧ (Move.mk "A" "P" 2).origin = s.name ∧
      (Move.mk "A" "P" 2).ship_count ≤ s.ship_count - 1) ∧
    (∃ d, d ∈ c2state.planets ∧ (Move.mk "A" "P" 2).destination = d.name ∧
      (simulate_arrivals d c2state).1 ≠ 1) :=
  claim_C5_profit_guard c2state (Move.mk "A" "P" 2)
    (by rw [c2_eval]; exact List.mem_cons_self _ _)

theorem claim_C7_witness :
    simulate_arrivalsZ c3planet c3state =
      (((simulate_arrivals c3planet c3state).1 : ℤ),
        ((simulate_arrivals c3planet c3state).2 : ℤ)) ∧
    0 ≤ (simulate_arrivalsZ c3planet c3state).2 :=
  ⟨(claim_C7_no_underflow c3planet c3state).1,
    (claim_C7_no_underflow c3planet c3state).2.2.2⟩

theorem claim_C8_witness :
    simulate_arrivals c8planet c8wstate =
      (1, c8planet.ship_count +
        lastTurnD 0 (sortExpeditions (relevant_expeditions c8planet c8wstate)) +
        sumShips (relevant_expeditions c8planet c8wstate)) ∧
    c8planet.ship_count < (simulate_arrivals c8planet c8wstate).2 :=
  claim_C8_growth c8planet c8wstate 1 rfl (by decide) (by decide) (by decide) (by decide)

theorem claim_C9_witness :
    simulate_arrivals c9planet (prune_dangling c9state) =
      simulate_arrivals c9planet c9state ∧
    next_move (prune_dangling c9state) = next_move c9state :=
  ⟨(claim_C9_silent_ignore c9state).1 c9planet (List.mem_cons_self _ _),
    (claim_C9_silent_ignore c9state).2⟩

theorem claim_C10_witness :
    (∃ s d, s ∈ c2state.planets ∧ d ∈ c2state.planets ∧
      (Move.mk "A" "P" 2).origin = s.name ∧ (Move.mk "A" "P" 2).destination = d.name ∧
      (Move.mk "A" "P" 2).ship_count = (score s d c2state).1 ∧
      (score s d c2state).2 ≠ 0) ∧
    (score czSource czDest c2state).2 = 0 :=
  ⟨claim_C10_zero_cost_discard.1 c2state (Move.mk "A" "P" 2)
      (by rw [c2_eval]; exact List.mem_cons_self _ _),
    claim_C10_zero_cost_discard.2 c2state czSource czDest rfl rfl⟩

/-! Justification of the distance model: ceilSqrtNat of the ceiling of a
non-negative rational is exactly the integer ceiling of its real square
root, so dist_ceil computes the ceil of the Euclidean distance the source
takes with f64 sqrt. -/

theorem ceilSqrtAux_spec : ∀ (fuel n m : ℕ), m ≤ (n + fuel) * (n + fuel) →
    (∀ j, j < n → ¬ m ≤ j * j) →
    m ≤ ceilSqrtAux fuel n m * ceilSqrtAux fuel n m ∧
      ∀ k, m ≤ k * k → ceilSqrtAux fuel n m ≤ k := by
  intro fuel
  induction fuel with
  | zero =>
    intro n m hle hmin
    simp only [ceilSqrtAux]
    refine ⟨by simpa using hle, ?_⟩
    intro k hk
    by_contra hlt
    push_neg at hlt
    exact hmin k hlt hk
  | succ f ih =>
    intro n m hle hmin
    simp only [ceilSqrtAux]
    by_cases h : m ≤ n * n
    · rw [if_pos h]
      refine ⟨h, ?_⟩
      intro k hk
      by_contra hlt
      push_neg at hlt
      exact hmin k hlt hk
    · rw [if_neg h]
      apply ih
      · have heq : (n + 1) + f = n + (f + 1) := by omega
        rw [heq]
        exact hle
      · intro j hj
        rcases Nat.lt_succ_iff_lt_or_eq.mp hj with hj2 | hj2
        · exact hmin j hj2
        · subst hj2
          exact h

theorem ceilSqrtNat_spec (m : ℕ) :
    m ≤ ceilSqrtNat m * ceilSqrtNat m ∧ ∀ k, m ≤ k * k → ceilSqrtNat m ≤ k := by
  apply ceilSqrtAux_spec
  · simp only [Nat.zero_add]
    exact Nat.le_trans (Nat.le_succ m) (Nat.le_mul_of_pos_left _ (by omega))
  · intro j hj
    exact absurd hj (Nat.not_lt_zero j)

theorem ceilSqrtNat_eq_ceil_sqrt (q : ℚ) (hq : 0 ≤ q) :
    (ceilSqrtNat (Int.toNat ⌈q⌉) : ℤ) = ⌈Real.sqrt (q : ℝ)⌉ := by
  have hv0 : (0 : ℝ) ≤ (q : ℝ) := by exact_mod_cast hq
  have hmv : ∀ k : ℕ, Int.toNat ⌈q⌉ ≤ k * k ↔ (q : ℝ) ≤ (k : ℝ) * (k : ℝ) := by
    intro k
    rw [Int.toNat_le]
    constructor
    · intro h
      have h2 : q ≤ ((k * k : ℕ) : ℚ) := by
        have := Int.ceil_le.mp (by exact_mod_cast h)
        exact_mod_cast this
      have h3 : (q : ℝ) ≤ (((k * k : ℕ) : ℚ) : ℝ) := by exact_mod_cast h2
      push_cast at h3
      exact h3
    · intro h
      have h2 : q ≤ ((k * k : ℕ) : ℚ) := by
        push_cast
        exact_mod_cast h
      have := Int.ceil_le.mpr h2
      exact_mod_cast this
  obtain ⟨h1, h2⟩ := ceilSqrtNat_spec (Int.toNat ⌈q⌉)
  symm
  rw [Int.ceil_eq_iff]
  constructor
  · cases hn : ceilSqrtNat (Int.toNat ⌈q⌉) with
    | zero =>
      push_cast
      have := Real.sqrt_nonneg (q : ℝ)
      linarith
    | succ j =>
      have hj : ¬ Int.toNat ⌈q⌉ ≤ j * j := by
        intro hle
        have := h2 j hle
        omega
      have hj2 : (j : ℝ) * (j : ℝ) < (q : ℝ) := by
        rcases lt_or_ge ((j : ℝ) * (j : ℝ)) (q : ℝ) with h | h
        · exact h
        · exact absurd ((hmv j).mpr h) hj
      have hj3 : (j : ℝ) < Real.sqrt (q : ℝ) := by
        rw [show (j : ℝ) * (j : ℝ) = (j : ℝ) ^ 2 by ring] at hj2
        exact (Real.lt_sqrt (by positivity)).mpr hj2
      push_cast
      linarith
  · have hle : (q : ℝ) ≤ (ceilSqrtNat (Int.toNat ⌈q⌉) : ℝ) *
        (ceilSqrtNat (Int.toNat ⌈q⌉) : ℝ) := (hmv _).mp h1
    have hs : Real.sqrt (q : ℝ) ≤ Real.sqrt ((ceilSqrtNat (Int.toNat ⌈q⌉) : ℝ) *
        (ceilSqrtNat (Int.toNat ⌈q⌉) : ℝ)) := Real.sqrt_le_sqrt hle
    rw [show (ceilSqrtNat (Int.toNat ⌈q⌉) : ℝ) * (ceilSqrtNat (Int.toNat ⌈q⌉) : ℝ) =
        (ceilSqrtNat (Int.toNat ⌈q⌉) : ℝ) ^ 2 by ring,
      Real.sqrt_sq (by positivity)] at hs
    push_cast
    exact hs

theorem dist_ceil_eq_ceil_sqrt (planet1 planet2 : Planet) :
    (dist_ceil planet1 planet2 : ℤ) =
      ⌈Real.sqrt ((distance_squared planet1 planet2 : ℚ) : ℝ)⌉ := by
  simp only [dist_ceil]
  apply ceilSqrtNat_eq_ceil_sqrt
  simp only [distance_squared]
  have h1 := mul_self_nonneg (planet1.x - planet2.x)
  have h2 := mul_self_nonneg (planet1.y - planet2.y)
  linarith
